import Mathlib

/-!
# Verification of the kicad_passives CSV-to-HTML table generator

A shallow embedding of `kicad_table.py`.  Cell values are lists of
characters (`Chars`); a pandas `Series` row is an ordered association
list from column name to an optional cell value, where `none` models a
null (`NaN`) cell and a missing key models an absent column.  Python
operations used by the script (`str.split(",")`, `str.strip()`,
`str.title()`, list multiplication, `pd.notnull`, Series indexing and
assignment) are each given a direct Lean counterpart.
-/

namespace KP

/-- A cell value: a Python string, as a list of characters. -/
abbrev Chars := List Char

/-- One row: an ordered mapping from column name to cell value.
`none` is a null (`NaN`) cell; a key that is absent entirely models a
column missing from the frame (Series indexing raises `KeyError`). -/
abbrev Record := List (String × Option Chars)

/-- An ordered sequence of rows. -/
abbrev Table := List Record

/-- Python `s.split(",")`: split on every comma, keeping empty pieces;
the empty string splits to `[""]`. -/
def splitOnComma : Chars → List Chars
  | [] => [[]]
  | c :: rest =>
    if c = ',' then [] :: splitOnComma rest
    else
      match splitOnComma rest with
      | [] => [[c]]
      | h :: t => (c :: h) :: t

/-- The whitespace characters removed by Python `str.strip()` (ASCII). -/
def pyWS (c : Char) : Bool :=
  c = ' ' || c = '\t' || c = '\n' || c = '\r' || c = '\x0b' || c = '\x0c'

/-- Remove a trailing run of whitespace, Python `s.rstrip()`. -/
def stripTrailing (s : Chars) : Chars :=
  (s.reverse.dropWhile pyWS).reverse

/-- Python `s.strip()`: drop leading and trailing whitespace. -/
def pyStrip (s : Chars) : Chars :=
  stripTrailing (s.dropWhile pyWS)

/-- Python list multiplication `l * n`: `n` concatenated copies of `l`. -/
def pyListMul (l : List Chars) (n : Nat) : List Chars :=
  (List.replicate n l).flatten

/-- `l * n if len(l) == 1 else l` — the broadcasting step of
`expand_multiple_values`. -/
def broadcast (l : List Chars) (n : Nat) : List Chars :=
  if l.length = 1 then pyListMul l n else l

/-- Series indexing `row[c]`: the value at the first occurrence of key
`c`, or `none` when the key is absent (Python raises `KeyError`). -/
def getCell : Record → String → Option (Option Chars)
  | [], _ => none
  | (k, v) :: rest, c => if k = c then some v else getCell rest c

/-- Series assignment `row[c] = v`: overwrite the first occurrence of
key `c`, or append the pair when the key is absent. -/
def setCell : Record → String → Chars → Record
  | [], c, v => [(c, some v)]
  | (k, w) :: rest, c, v =>
    if k = c then (c, some v) :: rest else (k, w) :: setCell rest c v

/-- `row[c].split(",") if pd.notnull(row[c]) else [""]` applied to an
already-fetched cell value. -/
def splitCell : Option Chars → List Chars
  | some s => splitOnComma s
  | none => [[]]

/-- Default value of the `dk_part_column` parameter. -/
def dkPartColumn : String := "DK Part #"

/-- Default value of the `package_column` parameter. -/
def packageColumn : String := " Package"

/-- `expand_multiple_values(row, dk_part_column, package_column)`:
split the two linked cells on commas (null becomes `[""]`), broadcast a
singleton list to the longer length by list multiplication, zip the two
lists positionally, and emit one copy of the row per pair with the two
columns overwritten by the stripped pair.  A missing key is a Python
`KeyError`. -/
def expand_multiple_values (row : Record) (dk pk : String) :
    Except String (List Record) :=
  match getCell row dk, getCell row pk with
  | some va, some vb =>
    let dk_parts := splitCell va
    let packages := splitCell vb
    let max_len := max dk_parts.length packages.length
    let dk_parts2 := broadcast dk_parts max_len
    let packages2 := broadcast packages max_len
    .ok ((List.zip dk_parts2 packages2).map (fun dp =>
      setCell (setCell row dk (pyStrip dp.1)) pk (pyStrip dp.2)))
  | _, _ => .error "KeyError"

/-- `expand_multiple_values(row)` with the default column names, as
called from `generate_table_from_combined_csv`. -/
def expandRow (row : Record) : Except String (List Record) :=
  expand_multiple_values row dkPartColumn packageColumn

/-- The row-expansion loop of `generate_table_from_combined_csv`:
`expanded_rows.extend(expand_multiple_values(row))` over the frame in
order; a raised `KeyError` aborts the run. -/
def expandTable : Table → Except String Table
  | [] => .ok []
  | r :: rest =>
    match expandRow r, expandTable rest with
    | .ok e, .ok es => .ok (e ++ es)
    | .error msg, _ => .error msg
    | .ok _, .error msg => .error msg

/-- The `EXCLUDE_COLUMNS` set literal (one entry is written twice in the
source literal; kept as written, membership is unaffected). -/
def EXCLUDE_COLUMNS : List String :=
  ["Price", "Stock", "@ qty", "Min Qty", "Series", "Size / Dimension",
   "Number of Terminations", "Features", "Temperature Coefficient",
   "Operating Temperature", "Supplier Device Package",
   "Height - Seated (Max)", "Size / Dimension", "Composition",
   "Product Status", "Supplier", "Failure Rate", "Ratings", "Image",
   "Datasheet", "Applications", "Lead Spacing", "Lead Style",
   "Thickness (Max)"]

/-- `[col for col in df.columns if col not in excl]` — the column
filter of `generate_table_from_combined_csv`. -/
def filterHeaders (headers excl : List String) : List String :=
  headers.filter (fun c => !(excl.contains c))

/-- The concrete column filter of the script: `filterHeaders` at
`EXCLUDE_COLUMNS`. -/
def generateHeaders (headers : List String) : List String :=
  filterHeaders headers EXCLUDE_COLUMNS

/-- The CSV-combining loop of `main`: each list element is the result
of `pd.read_csv` on one `.csv` file of the directory, in listing order;
the frames are concatenated, and a raised parse error propagates,
aborting the run (the loop has no try/except). -/
def combineCsvs : List (Except String Table) → Except String Table
  | [] => .ok []
  | f :: rest =>
    match f with
    | .error e => .error e
    | .ok t =>
      match combineCsvs rest with
      | .error e => .error e
      | .ok u => .ok (t ++ u)

/-- Modelled from the spec: the loader described in §4.3 and §7, in
which a file that fails to parse is "skipped with a logged warning
rather than aborting the whole run" and contributes nothing.  This
behaviour is absent from `main` in `kicad_table.py`; the definition
follows the spec's words for comparison with `combineCsvs`. -/
def combineCsvsSpec : List (Except String Table) → Table
  | [] => []
  | .error _ :: rest => combineCsvsSpec rest
  | .ok t :: rest => t ++ combineCsvsSpec rest

/-- Python `str.title()` on ASCII text: an alphabetic character is
uppercased when the previous character is not alphabetic and lowercased
otherwise; non-alphabetic characters pass through unchanged.  The
`Bool` argument records whether the previous character was alphabetic. -/
def pyTitleAux : Bool → Chars → Chars
  | _, [] => []
  | prevAlpha, c :: rest =>
    if c.isAlpha then
      (if prevAlpha then c.toLower else c.toUpper) :: pyTitleAux true rest
    else
      c :: pyTitleAux false rest

/-- Python `s.title()`. -/
def pyTitle (s : Chars) : Chars := pyTitleAux false s

/-- The link list of `create_index_page`: one entry per component page,
as the pair (href, visible text) of
`<a href="{page}.html">{page.title()}</a>`. -/
def indexLinks : List Chars → List (Chars × Chars)
  | [] => []
  | p :: rest => (p ++ (".html".toList), pyTitle p) :: indexLinks rest

/-- Modelled from the spec: §4.5 derives the visible link text "by
replacing underscores with spaces and capitalizing each word" (the
transformation `main` applies to the page heading, but not to the index
link text). -/
def specLinkText (p : Chars) : Chars :=
  pyTitle (p.map (fun c => if c = '_' then ' ' else c))

/-! ## Helper lemmas: comma splitting -/

theorem splitOnComma_ne_nil (s : Chars) : splitOnComma s ≠ [] := by
  induction s with
  | nil => simp [splitOnComma]
  | cons c rest ih =>
    simp only [splitOnComma]
    split
    · simp
    · split
      · simp
      · simp

theorem not_comma_mem_of_mem_splitOnComma {s x : Chars}
    (hx : x ∈ splitOnComma s) : ',' ∉ x := by
  induction s generalizing x with
  | nil =>
    simp only [splitOnComma, List.mem_singleton] at hx
    simp [hx]
  | cons c rest ih =>
    simp only [splitOnComma] at hx
    by_cases hc : c = ','
    · rw [if_pos hc] at hx
      rcases List.mem_cons.mp hx with h | h
      · simp [h]
      · exact ih h
    · rw [if_neg hc] at hx
      cases hrec : splitOnComma rest with
      | nil => exact absurd hrec (splitOnComma_ne_nil rest)
      | cons h0 t0 =>
        rw [hrec] at hx
        rcases List.mem_cons.mp hx with h | h
        · subst h
          intro hmem
          rcases List.mem_cons.mp hmem with h' | h'
          · exact hc h'.symm
          · exact ih (hrec ▸ List.mem_cons_self h0 t0) h'
        · exact ih (hrec ▸ List.mem_cons_of_mem h0 h)

theorem splitOnComma_eq_of_not_mem {s : Chars} (h : ',' ∉ s) :
    splitOnComma s = [s] := by
  induction s with
  | nil => rfl
  | cons c rest ih =>
    have hc : ¬ c = ',' := fun hc => h (hc ▸ List.mem_cons_self c rest)
    have hrest : ',' ∉ rest := fun hm => h (List.mem_cons_of_mem c hm)
    simp only [splitOnComma, if_neg hc, ih hrest]

/-! ## Helper lemmas: whitespace stripping -/

theorem length_dropWhile_le (p : Char → Bool) (l : Chars) :
    (l.dropWhile p).length ≤ l.length := by
  induction l with
  | nil => simp
  | cons c rest ih =>
    rw [List.dropWhile_cons]
    split
    · exact Nat.le_succ_of_le ih
    · exact Nat.le_refl _

theorem dropWhile_dropWhile (p : Char → Bool) (l : Chars) :
    (l.dropWhile p).dropWhile p = l.dropWhile p := by
  induction l with
  | nil => simp
  | cons c rest ih =>
    rw [List.dropWhile_cons]
    split
    · exact ih
    · rw [List.dropWhile_cons]
      simp_all

theorem dropWhile_append_singleton {p : Char → Bool} {c : Char}
    (hc : p c = false) (xs : Chars) :
    (xs ++ [c]).dropWhile p = xs.dropWhile p ++ [c] := by
  induction xs with
  | nil => simp [List.dropWhile_cons, hc]
  | cons x xs ih =>
    rw [List.cons_append, List.dropWhile_cons, List.dropWhile_cons]
    split
    · exact ih
    · simp

theorem stripTrailing_cons_of_not {c : Char} (hc : pyWS c = false)
    (t : Chars) : stripTrailing (c :: t) = c :: stripTrailing t := by
  unfold stripTrailing
  rw [show (c :: t).reverse = t.reverse ++ [c] by simp,
    dropWhile_append_singleton hc]
  simp

theorem dropWhile_stripTrailing {l : Chars}
    (h : l.dropWhile pyWS = l) :
    (stripTrailing l).dropWhile pyWS = stripTrailing l := by
  cases l with
  | nil => rfl
  | cons c t =>
    have hc : pyWS c = false := by
      by_contra hcc
      rw [List.dropWhile_cons] at h
      rw [Bool.not_eq_false] at hcc
      rw [if_pos hcc] at h
      have := length_dropWhile_le pyWS t
      rw [h] at this
      simp at this
    rw [stripTrailing_cons_of_not hc, List.dropWhile_cons, hc]
    simp

theorem stripTrailing_idem (l : Chars) :
    stripTrailing (stripTrailing l) = stripTrailing l := by
  unfold stripTrailing
  rw [List.reverse_reverse, dropWhile_dropWhile]

theorem pyStrip_idem (s : Chars) : pyStrip (pyStrip s) = pyStrip s := by
  unfold pyStrip
  rw [dropWhile_stripTrailing (dropWhile_dropWhile pyWS s),
    stripTrailing_idem]

theorem mem_of_mem_pyStrip {x : Char} {s : Chars}
    (h : x ∈ pyStrip s) : x ∈ s := by
  unfold pyStrip stripTrailing at h
  rw [List.mem_reverse] at h
  have h1 := (List.dropWhile_sublist (l := (s.dropWhile pyWS).reverse)
    (p := pyWS)).mem h
  rw [List.mem_reverse] at h1
  exact (List.dropWhile_sublist (l := s) (p := pyWS)).mem h1

theorem not_comma_pyStrip {s : Chars} (h : ',' ∉ s) : ',' ∉ pyStrip s :=
  fun hm => h (mem_of_mem_pyStrip hm)

/-! ## Helper lemmas: record access -/

theorem getCell_setCell_self (r : Record) (k : String) (v : Chars) :
    getCell (setCell r k v) k = some (some v) := by
  induction r with
  | nil => simp [setCell, getCell]
  | cons kv rest ih =>
    obtain ⟨k', w⟩ := kv
    by_cases hk : k' = k
    · simp [setCell, getCell, hk]
    · simp [setCell, getCell, hk, ih]

theorem getCell_setCell_ne (r : Record) {k c : String} (v : Chars)
    (hck : c ≠ k) : getCell (setCell r k v) c = getCell r c := by
  have hkc : ¬ k = c := fun h => hck h.symm
  induction r with
  | nil => simp [setCell, getCell, hkc]
  | cons kv rest ih =>
    obtain ⟨k', w⟩ := kv
    by_cases hk : k' = k
    · subst hk
      simp [setCell, getCell, hkc]
    · by_cases hkc' : k' = c
      · subst hkc'
        simp [setCell, getCell, hk]
      · simp [setCell, getCell, hk, hkc', ih]

theorem setCell_eq_self {r : Record} {k : String} {v : Chars}
    (h : getCell r k = some (some v)) : setCell r k v = r := by
  induction r with
  | nil => simp [getCell] at h
  | cons kv rest ih =>
    obtain ⟨k', w⟩ := kv
    by_cases hk : k' = k
    · subst hk
      have hw : w = some v := by simpa [getCell] using h
      simp [setCell, hw]
    · simp only [getCell, if_neg hk] at h
      simp [setCell, hk, ih h]

theorem keys_setCell {r : Record} {k : String} {w : Option Chars}
    (v : Chars) (h : getCell r k = some w) :
    (setCell r k v).map Prod.fst = r.map Prod.fst := by
  induction r with
  | nil => simp [getCell] at h
  | cons kv rest ih =>
    obtain ⟨k', w'⟩ := kv
    by_cases hk : k' = k
    · simp [setCell, hk]
    · simp only [getCell, if_neg hk] at h
      simp [setCell, hk, ih h]

/-! ## Helper lemmas: broadcasting and zipping -/

theorem pyListMul_singleton (x : Chars) (n : Nat) :
    pyListMul [x] n = List.replicate n x := by
  induction n with
  | zero => rfl
  | succ m ih =>
    simp only [pyListMul, List.replicate_succ, List.flatten_cons] at *
    simp [ih]

theorem broadcast_of_length_ne_one {l : List Chars} (n : Nat)
    (h : l.length ≠ 1) : broadcast l n = l := by
  simp [broadcast, h]

theorem broadcast_singleton (x : Chars) (n : Nat) :
    broadcast [x] n = List.replicate n x := by
  simp [broadcast, pyListMul_singleton]

theorem broadcast_self_length (l : List Chars) :
    broadcast l l.length = l := by
  by_cases h : l.length = 1
  · obtain ⟨x, rfl⟩ := List.length_eq_one.mp h
    simp [broadcast_singleton]
  · exact broadcast_of_length_ne_one _ h

theorem mem_broadcast {y : Chars} {l : List Chars} {n : Nat}
    (h : y ∈ broadcast l n) : y ∈ l := by
  unfold broadcast at h
  split at h
  · rename_i h1
    obtain ⟨x, rfl⟩ := List.length_eq_one.mp h1
    rw [pyListMul_singleton] at h
    simp [List.eq_of_mem_replicate h]
  · exact h

theorem broadcast_length_pos {l : List Chars} {n : Nat}
    (hl : l ≠ []) (hn : 0 < n) : 0 < (broadcast l n).length := by
  unfold broadcast
  split
  · rename_i h1
    obtain ⟨x, rfl⟩ := List.length_eq_one.mp h1
    simp [pyListMul_singleton, hn]
  · exact List.length_pos.mpr hl

theorem zip_replicate_left (x : Chars) (l : List Chars) :
    List.zip (List.replicate l.length x) l = l.map (fun y => (x, y)) := by
  induction l with
  | nil => rfl
  | cons y t ih => simp [List.replicate_succ, ih]

theorem zip_replicate_right (x : Chars) (l : List Chars) :
    List.zip l (List.replicate l.length x) = l.map (fun y => (y, x)) := by
  induction l with
  | nil => rfl
  | cons y t ih => simp [List.replicate_succ, ih]

theorem splitCell_ne_nil (v : Option Chars) : splitCell v ≠ [] := by
  cases v with
  | none => simp [splitCell]
  | some s => exact splitOnComma_ne_nil s

theorem not_comma_mem_of_mem_splitCell {v : Option Chars} {x : Chars}
    (hx : x ∈ splitCell v) : ',' ∉ x := by
  cases v with
  | none =>
    simp only [splitCell, List.mem_singleton] at hx
    simp [hx]
  | some s => exact not_comma_mem_of_mem_splitOnComma hx

/-! ## Helper lemmas: unfolding the expander -/

theorem expand_eq {row : Record} {dk pk : String} {va vb : Option Chars}
    (ha : getCell row dk = some va) (hb : getCell row pk = some vb) :
    expand_multiple_values row dk pk =
      .ok ((List.zip
        (broadcast (splitCell va)
          (max (splitCell va).length (splitCell vb).length))
        (broadcast (splitCell vb)
          (max (splitCell va).length (splitCell vb).length))).map
        (fun dp => setCell (setCell row dk (pyStrip dp.1)) pk
          (pyStrip dp.2))) := by
  unfold expand_multiple_values
  rw [ha, hb]

theorem expand_ok_ne_nil {row : Record} {dk pk : String}
    {out : List Record}
    (h : expand_multiple_values row dk pk = .ok out) : out ≠ [] := by
  unfold expand_multiple_values at h
  cases ha : getCell row dk with
  | none => rw [ha] at h; exact absurd h (by simp)
  | some va =>
    cases hb : getCell row pk with
    | none => rw [ha, hb] at h; exact absurd h (by simp)
    | some vb =>
      rw [ha, hb] at h
      simp only [Except.ok.injEq] at h
      subst h
      apply List.ne_nil_of_length_pos
      rw [List.length_map, List.length_zip]
      have h1 : 0 < (splitCell va).length :=
        List.length_pos.mpr (splitCell_ne_nil va)
      have h2 : 0 < (splitCell vb).length :=
        List.length_pos.mpr (splitCell_ne_nil vb)
      have hm : 0 < max (splitCell va).length (splitCell vb).length :=
        Nat.lt_of_lt_of_le h1 (Nat.le_max_left _ _)
      exact Nat.lt_min.mpr
        ⟨broadcast_length_pos (splitCell_ne_nil va) hm,
         broadcast_length_pos (splitCell_ne_nil vb) hm⟩

theorem expand_ok_cells {row : Record} {dk pk : String}
    {out : List Record}
    (h : expand_multiple_values row dk pk = .ok out) :
    ∃ va vb, getCell row dk = some va ∧ getCell row pk = some vb := by
  unfold expand_multiple_values at h
  cases ha : getCell row dk with
  | none => rw [ha] at h; exact absurd h (by simp)
  | some va =>
    cases hb : getCell row pk with
    | none => rw [ha, hb] at h; exact absurd h (by simp)
    | some vb => exact ⟨va, vb, rfl, rfl⟩

theorem dk_ne_package : dkPartColumn ≠ packageColumn := by decide

theorem package_ne_dk : packageColumn ≠ dkPartColumn := by decide

/-- The single-pair case of the expander: both linked cells hold
comma-free values, so exactly one Record comes out, with both columns
stripped. -/
theorem expandRow_singleton {row : Record} {a b : Chars}
    (ha : getCell row dkPartColumn = some (some a))
    (hb : getCell row packageColumn = some (some b))
    (hca : ',' ∉ a) (hcb : ',' ∉ b) :
    expandRow row = .ok [setCell (setCell row dkPartColumn (pyStrip a))
      packageColumn (pyStrip b)] := by
  rw [expandRow, expand_eq ha hb]
  simp only [splitCell]
  rw [splitOnComma_eq_of_not_mem hca, splitOnComma_eq_of_not_mem hcb]
  simp [broadcast_singleton]

/-- Every Record emitted by the expander has both linked columns set to
a stripped, comma-free entry, and re-expanding it reproduces exactly
itself. -/
theorem expand_output_reexpands {row : Record} {out : List Record}
    (h : expandRow row = .ok out) {r' : Record} (hr : r' ∈ out) :
    (∃ d p, getCell r' dkPartColumn = some (some d) ∧
      getCell r' packageColumn = some (some p) ∧
      ',' ∉ d ∧ ',' ∉ p ∧ pyStrip d = d ∧ pyStrip p = p) ∧
    expandRow r' = .ok [r'] := by
  obtain ⟨va, vb, ha, hb⟩ := expand_ok_cells h
  rw [expandRow, expand_eq ha hb] at h
  simp only [Except.ok.injEq] at h
  subst h
  obtain ⟨dp, hdp, rfl⟩ := List.mem_map.mp hr
  obtain ⟨d, p⟩ := dp
  obtain ⟨hd, hp⟩ := List.of_mem_zip hdp
  have hdc : ',' ∉ d := not_comma_mem_of_mem_splitCell (mem_broadcast hd)
  have hpc : ',' ∉ p := not_comma_mem_of_mem_splitCell (mem_broadcast hp)
  have hdc' : ',' ∉ pyStrip d := not_comma_pyStrip hdc
  have hpc' : ',' ∉ pyStrip p := not_comma_pyStrip hpc
  have hget_d : getCell (setCell (setCell row dkPartColumn (pyStrip d))
      packageColumn (pyStrip p)) dkPartColumn = some (some (pyStrip d)) := by
    rw [getCell_setCell_ne _ _ dk_ne_package, getCell_setCell_self]
  have hget_p : getCell (setCell (setCell row dkPartColumn (pyStrip d))
      packageColumn (pyStrip p)) packageColumn = some (some (pyStrip p)) :=
    getCell_setCell_self _ _ _
  refine ⟨⟨pyStrip d, pyStrip p, hget_d, hget_p, hdc', hpc',
    pyStrip_idem d, pyStrip_idem p⟩, ?_⟩
  rw [expandRow_singleton hget_d hget_p hdc' hpc', pyStrip_idem,
    pyStrip_idem, setCell_eq_self hget_d, setCell_eq_self hget_p]

/-- A Table all of whose rows expand to exactly themselves is a fixed
point of the expansion loop. -/
theorem expandTable_fixed {u : Table}
    (h : ∀ r ∈ u, expandRow r = .ok [r]) : expandTable u = .ok u := by
  induction u with
  | nil => rfl
  | cons r rest ih =>
    simp only [expandTable]
    rw [h r (List.mem_cons_self r rest),
      ih (fun y hy => h y (List.mem_cons_of_mem r hy))]
    rfl

/-- Every Record of a successfully expanded Table comes from the
expansion of some input Record. -/
theorem expandTable_mem {t u : Table} (h : expandTable t = .ok u)
    {r' : Record} (hr : r' ∈ u) :
    ∃ row out, expandRow row = .ok out ∧ r' ∈ out := by
  induction t generalizing u with
  | nil =>
    simp only [expandTable, Except.ok.injEq] at h
    subst h
    exact absurd hr (List.not_mem_nil r')
  | cons r rest ih =>
    simp only [expandTable] at h
    cases er : expandRow r with
    | error msg => rw [er] at h; exact absurd h (by simp)
    | ok e =>
      cases et : expandTable rest with
      | error msg => rw [er, et] at h; exact absurd h (by simp)
      | ok es =>
        rw [er, et] at h
        simp only [Except.ok.injEq] at h
        subst h
        rcases List.mem_append.mp hr with hmem | hmem
        · exact ⟨r, e, er, hmem⟩
        · exact ih et hmem

/-! ## Claim theorems -/

/-- Claim C1: for a Record whose two linked cells split on commas into
lists whose lengths differ and neither is 1, expansion returns exactly
`min lenA lenB` Records, the i-th output pairing the i-th (stripped)
entry of each list, entries beyond the shorter list being dropped. -/
theorem expand_mismatch_truncates (row : Record) (a b : Chars)
    (ha : getCell row dkPartColumn = some (some a))
    (hb : getCell row packageColumn = some (some b))
    (_hne : (splitOnComma a).length ≠ (splitOnComma b).length)
    (h1 : (splitOnComma a).length ≠ 1)
    (h2 : (splitOnComma b).length ≠ 1) :
    expandRow row = .ok (((splitOnComma a).zip (splitOnComma b)).map
      (fun dp => setCell (setCell row dkPartColumn (pyStrip dp.1))
        packageColumn (pyStrip dp.2))) ∧
    (((splitOnComma a).zip (splitOnComma b)).map
      (fun dp => setCell (setCell row dkPartColumn (pyStrip dp.1))
        packageColumn (pyStrip dp.2))).length =
      min (splitOnComma a).length (splitOnComma b).length := by
  constructor
  · rw [expandRow, expand_eq ha hb]
    simp only [splitCell]
    rw [broadcast_of_length_ne_one _ h1, broadcast_of_length_ne_one _ h2]
  · rw [List.length_map, List.length_zip]

/-- Witness for C1 at the spec's example: A = "X,Y,Z", B = "P,Q" yields
exactly the two Records (A=X, B=P) and (A=Y, B=Q); "Z" is dropped. -/
theorem expand_mismatch_truncates_witness :
    expandRow [(dkPartColumn, some "X,Y,Z".toList),
               (packageColumn, some "P,Q".toList)] =
      .ok [[(dkPartColumn, some "X".toList),
            (packageColumn, some "P".toList)],
           [(dkPartColumn, some "Y".toList),
            (packageColumn, some "Q".toList)]] :=
  (expand_mismatch_truncates _ "X,Y,Z".toList "P,Q".toList (by decide)
    (by decide) (by decide) (by decide) (by decide)).1

/-- Claim C2: when one linked cell splits to a single entry and the
other to more than one, expansion returns one Record per entry of the
longer list, the single entry replicated against each of them. -/
theorem expand_broadcasts_singleton (row : Record) (a b x : Chars)
    (ha : getCell row dkPartColumn = some (some a))
    (hb : getCell row packageColumn = some (some b)) :
    (splitOnComma a = [x] → 1 < (splitOnComma b).length →
      expandRow row = .ok ((splitOnComma b).map
        (fun p => setCell (setCell row dkPartColumn (pyStrip x))
          packageColumn (pyStrip p)))) ∧
    (splitOnComma b = [x] → 1 < (splitOnComma a).length →
      expandRow row = .ok ((splitOnComma a).map
        (fun d => setCell (setCell row dkPartColumn (pyStrip d))
          packageColumn (pyStrip x)))) := by
  constructor
  · intro hA hBlen
    have hBne : (splitOnComma b).length ≠ 1 := by omega
    rw [expandRow, expand_eq ha hb]
    simp only [splitCell]
    rw [hA]
    have hmax : max ([x] : List Chars).length (splitOnComma b).length =
        (splitOnComma b).length := by
      simp only [List.length_singleton]
      omega
    rw [hmax, broadcast_singleton, broadcast_of_length_ne_one _ hBne,
      zip_replicate_left, List.map_map]
    rfl
  · intro hB hAlen
    have hAne : (splitOnComma a).length ≠ 1 := by omega
    rw [expandRow, expand_eq ha hb]
    simp only [splitCell]
    rw [hB]
    have hmax : max (splitOnComma a).length ([x] : List Chars).length =
        (splitOnComma a).length := by
      simp only [List.length_singleton]
      omega
    rw [hmax, broadcast_singleton, broadcast_of_length_ne_one _ hAne,
      zip_replicate_right, List.map_map]
    rfl

/-- Witness for C2 at the spec's example: A = "X,Y", B = "P" yields the
two Records (A=X, B=P) and (A=Y, B=P). -/
theorem expand_broadcasts_singleton_witness :
    expandRow [(dkPartColumn, some "X,Y".toList),
               (packageColumn, some "P".toList)] =
      .ok [[(dkPartColumn, some "X".toList),
            (packageColumn, some "P".toList)],
           [(dkPartColumn, some "Y".toList),
            (packageColumn, some "P".toList)]] :=
  (expand_broadcasts_singleton _ "X,Y".toList "P".toList "P".toList
    (by decide) (by decide)).2 (by decide) (by decide)

/-- Counterexample for C3: both linked cells hold single comma-free
values, yet the output Record is not identical to the input, because
the expander strips surrounding whitespace (" X" becomes "X"). -/
theorem expand_single_not_identical :
    expandRow [(dkPartColumn, some " X".toList),
               (packageColumn, some "P".toList)] =
      .ok [[(dkPartColumn, some "X".toList),
            (packageColumn, some "P".toList)]] ∧
    [[(dkPartColumn, some "X".toList),
      (packageColumn, some "P".toList)]] ≠
      [[(dkPartColumn, some " X".toList),
        (packageColumn, some "P".toList)]] :=
  ⟨rfl, by decide⟩

/-- Claim C3 as amended: when both linked cells hold single comma-free
values, expansion returns exactly one Record, equal to the input except
that the two linked columns hold the whitespace-stripped values — and
identical to the input whenever those values carry no surrounding
whitespace. -/
theorem expand_single_values (row : Record) (a b : Chars)
    (ha : getCell row dkPartColumn = some (some a))
    (hb : getCell row packageColumn = some (some b))
    (hca : ',' ∉ a) (hcb : ',' ∉ b) :
    expandRow row = .ok [setCell (setCell row dkPartColumn (pyStrip a))
      packageColumn (pyStrip b)] ∧
    (pyStrip a = a → pyStrip b = b → expandRow row = .ok [row]) := by
  have h1 := expandRow_singleton ha hb hca hcb
  refine ⟨h1, fun hsa hsb => ?_⟩
  rw [h1, hsa, hsb, setCell_eq_self ha, setCell_eq_self hb]

/-- Witness for the amended C3 at a Record with already-stripped single
values: expansion returns exactly the input Record. -/
theorem expand_single_values_witness :
    expandRow [(dkPartColumn, some "X".toList),
               (packageColumn, some "P".toList)] =
      .ok [[(dkPartColumn, some "X".toList),
            (packageColumn, some "P".toList)]] :=
  (expand_single_values _ "X".toList "P".toList (by decide) (by decide)
    (by decide) (by decide)).2 (by decide) (by decide)

/-- Counterexample for C6: a Record from which the expected linked
column "DK Part #" is entirely absent makes expansion raise a
`KeyError` — a missing column is fatal, not silently degraded. -/
theorem expand_missing_column_error :
    expandRow [(packageColumn, some ['P'])] = .error "KeyError" := rfl

/-- Claim C6 as amended: whenever either expected linked column key is
entirely absent from the Record, expansion raises a `KeyError`; when
both keys are present, expansion raises no error regardless of null
values, and a null value in either linked column (or in both) is
treated as the single-element list [""], whose empty entry is paired
against every (stripped) entry of the other column. -/
theorem expand_null_cell (row : Record) (va vb : Option Chars) :
    (getCell row dkPartColumn = none ∨
        getCell row packageColumn = none →
      expandRow row = .error "KeyError") ∧
    (getCell row dkPartColumn = some va →
      getCell row packageColumn = some vb →
      (∃ out, expandRow row = .ok out) ∧
      (va = none → expandRow row = .ok ((splitCell vb).map
        (fun p => setCell (setCell row dkPartColumn [])
          packageColumn (pyStrip p)))) ∧
      (vb = none → expandRow row = .ok ((splitCell va).map
        (fun d => setCell (setCell row dkPartColumn (pyStrip d))
          packageColumn [])))) := by
  constructor
  · rintro (hna | hnb)
    · unfold expandRow expand_multiple_values
      rw [hna]
    · unfold expandRow expand_multiple_values
      rw [hnb]
      cases hpa : getCell row dkPartColumn with
      | none => rfl
      | some va' => rfl
  · intro ha hb
    refine ⟨⟨_, by rw [expandRow]; exact expand_eq ha hb⟩, ?_, ?_⟩
    · rintro rfl
      rw [expandRow, expand_eq ha hb]
      rw [show splitCell (none : Option Chars) = [[]] from rfl]
      have hb1 : 0 < (splitCell vb).length :=
        List.length_pos.mpr (splitCell_ne_nil vb)
      have hmax : max (List.length ([[]] : List Chars))
          (splitCell vb).length = (splitCell vb).length := by
        simp only [List.length_singleton]
        omega
      rw [hmax, broadcast_singleton, broadcast_self_length,
        zip_replicate_left, List.map_map]
      rfl
    · rintro rfl
      rw [expandRow, expand_eq ha hb]
      rw [show splitCell (none : Option Chars) = [[]] from rfl]
      have ha1 : 0 < (splitCell va).length :=
        List.length_pos.mpr (splitCell_ne_nil va)
      have hmax : max (splitCell va).length
          (List.length ([[]] : List Chars)) = (splitCell va).length := by
        simp only [List.length_singleton]
        omega
      rw [hmax, broadcast_singleton, broadcast_self_length,
        zip_replicate_right, List.map_map]
      rfl

/-- Witness for the amended C6 at a null " Package" cell: expansion
raises no error and pairs the empty package against the part number. -/
theorem expand_null_cell_witness :
    expandRow [(dkPartColumn, some "A1".toList), (packageColumn, none)] =
      .ok [[(dkPartColumn, some "A1".toList),
            (packageColumn, some [])]] :=
  ((expand_null_cell [(dkPartColumn, some "A1".toList),
      (packageColumn, none)] (some "A1".toList) none).2
    (by decide) (by decide)).2.2 rfl

/-- Claim C4: successful expansion maps each input Record, in order, to
a nonempty block of output Records, and the output Table is exactly the
concatenation of those blocks — order-preserving, no Record dropped,
each output tracing to exactly one input. -/
theorem expandTable_traces (t us : Table) (h : expandTable t = .ok us) :
    ∃ bs : List (List Record), t.map expandRow = bs.map Except.ok ∧
      us = bs.flatten ∧ ∀ b ∈ bs, b ≠ [] := by
  induction t generalizing us with
  | nil =>
    simp only [expandTable, Except.ok.injEq] at h
    exact ⟨[], by simp, by simp [h.symm], by simp⟩
  | cons r rest ih =>
    simp only [expandTable] at h
    cases er : expandRow r with
    | error msg => rw [er] at h; exact absurd h (by simp)
    | ok e =>
      cases et : expandTable rest with
      | error msg => rw [er, et] at h; exact absurd h (by simp)
      | ok es =>
        rw [er, et] at h
        simp only [Except.ok.injEq] at h
        subst h
        obtain ⟨bs, hmap, hflat, hne⟩ := ih es et
        refine ⟨e :: bs, ?_, ?_, ?_⟩
        · simp [er, hmap]
        · simp [hflat]
        · intro b hb
          rcases List.mem_cons.mp hb with rfl | hb'
          · exact expand_ok_ne_nil er
          · exact hne b hb'

/-- Witness for C4 at a one-row Table whose Record expands to two
Records. -/
theorem expandTable_traces_witness :
    ∃ bs : List (List Record),
      ([[(dkPartColumn, some "A1,A2".toList),
         (packageColumn, some "SMD".toList)]] : Table).map expandRow =
        bs.map Except.ok ∧
      ([[(dkPartColumn, some "A1".toList),
         (packageColumn, some "SMD".toList)],
        [(dkPartColumn, some "A2".toList),
         (packageColumn, some "SMD".toList)]] : Table) = bs.flatten ∧
      ∀ b ∈ bs, b ≠ [] :=
  expandTable_traces _ _ rfl

/-- Claim C5: every Record output by the expander agrees with its input
Record on every column other than the two linked ones, and has exactly
the input's column names in the input's order. -/
theorem expand_frame (row : Record) (out : List Record) (r' : Record)
    (c : String) (h : expandRow row = .ok out) (hr : r' ∈ out)
    (h1 : c ≠ dkPartColumn) (h2 : c ≠ packageColumn) :
    getCell r' c = getCell row c ∧
    r'.map Prod.fst = row.map Prod.fst := by
  obtain ⟨va, vb, ha, hb⟩ := expand_ok_cells h
  rw [expandRow, expand_eq ha hb] at h
  simp only [Except.ok.injEq] at h
  subst h
  obtain ⟨dp, _, rfl⟩ := List.mem_map.mp hr
  constructor
  · rw [getCell_setCell_ne _ _ h2, getCell_setCell_ne _ _ h1]
  · have hmid : getCell (setCell row dkPartColumn (pyStrip dp.1))
        packageColumn = some vb := by
      rw [getCell_setCell_ne _ _ package_ne_dk, hb]
    rw [keys_setCell _ hmid, keys_setCell _ ha]

/-- Witness for C5: the "Mfr" column of an expanded Record keeps its
input value, and the column list is unchanged. -/
theorem expand_frame_witness :
    getCell [(dkPartColumn, some "A1".toList),
             (packageColumn, some "SMD".toList),
             ("Mfr", some "Yageo".toList)] "Mfr" =
      getCell [(dkPartColumn, some "A1,A2".toList),
               (packageColumn, some "SMD".toList),
               ("Mfr", some "Yageo".toList)] "Mfr" ∧
    ([(dkPartColumn, some "A1".toList),
      (packageColumn, some "SMD".toList),
      ("Mfr", some "Yageo".toList)] : Record).map Prod.fst =
      ([(dkPartColumn, some "A1,A2".toList),
        (packageColumn, some "SMD".toList),
        ("Mfr", some "Yageo".toList)] : Record).map Prod.fst :=
  expand_frame _ _ _ "Mfr" rfl (by decide) (by decide) (by decide)

/-- Claim C10: expansion is idempotent — every Record it outputs has
comma-free, fully stripped linked-column values and re-expands to
exactly itself, and a successfully expanded Table is a fixed point of
the expansion loop. -/
theorem expand_idempotent (row : Record) (out : List Record)
    (t u : Table) :
    (expandRow row = .ok out → ∀ r' ∈ out,
      (∃ d p, getCell r' dkPartColumn = some (some d) ∧
        getCell r' packageColumn = some (some p) ∧
        ',' ∉ d ∧ ',' ∉ p ∧ pyStrip d = d ∧ pyStrip p = p) ∧
      expandRow r' = .ok [r']) ∧
    (expandTable t = .ok u → expandTable u = .ok u) := by
  constructor
  · intro h r' hr
    exact expand_output_reexpands h hr
  · intro h
    apply expandTable_fixed
    intro r hru
    obtain ⟨row0, out0, h0, hr0⟩ := expandTable_mem h hru
    exact (expand_output_reexpands h0 hr0).2

/-- Witness for C10: re-expanding a Record produced by the expander
yields exactly that Record again. -/
theorem expand_idempotent_witness :
    expandRow [(dkPartColumn, some "A1".toList),
               (packageColumn, some "SMD".toList)] =
      .ok [[(dkPartColumn, some "A1".toList),
            (packageColumn, some "SMD".toList)]] :=
  ((expand_idempotent
      [(dkPartColumn, some " A1,A2".toList),
       (packageColumn, some "SMD".toList)]
      [[(dkPartColumn, some "A1".toList),
        (packageColumn, some "SMD".toList)],
       [(dkPartColumn, some "A2".toList),
        (packageColumn, some "SMD".toList)]] [] []).1
    rfl _ (by decide)).2

/-- Counterexample for C7: a directory whose first `.csv` file fails to
parse makes the whole combining loop return that error — the later,
well-formed file is never reached — whereas the loader the spec
describes would skip the bad file and keep the good one's rows. -/
theorem combineCsvs_not_skipping :
    combineCsvs [.error "ParserError",
      .ok [[("Mfr", some "Yageo".toList)]]] = .error "ParserError" ∧
    combineCsvsSpec [.error "ParserError",
      .ok [[("Mfr", some "Yageo".toList)]]] =
      [[("Mfr", some "Yageo".toList)]] :=
  ⟨rfl, rfl⟩

/-- Claim C7 as amended: a CSV file that fails to parse raises an
uncaught error that aborts the whole run as soon as it is reached (all
earlier files having parsed); no warning is logged and no remaining
file is processed. -/
theorem combineCsvs_error_propagates (pre rest : List (Except String Table))
    (e : String) (h : ∀ x ∈ pre, ∃ t, x = .ok t) :
    combineCsvs (pre ++ .error e :: rest) = .error e := by
  induction pre with
  | nil => rfl
  | cons x pr ih =>
    obtain ⟨t, rfl⟩ := h x (List.mem_cons_self x pr)
    have ih' : combineCsvs (pr ++ Except.error e :: rest) =
        Except.error e :=
      ih (fun y hy => h y (List.mem_cons_of_mem _ hy))
    have hstep : combineCsvs ((Except.ok t :: pr) ++
        Except.error e :: rest) =
        match combineCsvs (pr ++ Except.error e :: rest) with
        | Except.error msg => Except.error msg
        | Except.ok u => Except.ok (t ++ u) := rfl
    rw [hstep, ih']

/-- Witness for the amended C7: one good file followed by one bad file
aborts with the bad file's error. -/
theorem combineCsvs_error_propagates_witness :
    combineCsvs [.ok [], .error "ParserError"] = .error "ParserError" :=
  combineCsvs_error_propagates [.ok []] [] "ParserError"
    (fun _x hx => ⟨[], List.mem_singleton.mp hx⟩)

theorem pyTitleAux_nonalpha (b : Bool) (s : Chars) :
    (pyTitleAux b s).length = s.length ∧
    ∀ pr ∈ List.zip s (pyTitleAux b s),
      pr.1.isAlpha = false → pr.2 = pr.1 := by
  induction s generalizing b with
  | nil => simp [pyTitleAux]
  | cons c rest ih =>
    by_cases hc : c.isAlpha
    · refine ⟨by simp [pyTitleAux, hc, (ih true).1], ?_⟩
      intro pr hpr halpha
      simp only [pyTitleAux, if_pos hc, List.zip_cons_cons] at hpr
      rcases List.mem_cons.mp hpr with rfl | hpr'
      · simp at halpha
        exact absurd hc (by simp [halpha])
      · exact (ih true).2 pr hpr' halpha
    · refine ⟨by simp [pyTitleAux, hc, (ih false).1], ?_⟩
      intro pr hpr halpha
      simp only [pyTitleAux, if_neg hc, List.zip_cons_cons] at hpr
      rcases List.mem_cons.mp hpr with rfl | hpr'
      · rfl
      · exact (ih false).2 pr hpr' halpha

/-- Counterexample for C8: the index entry for the group
"resistor_array" links to "resistor_array.html" but its visible text is
"Resistor_Array" — `str.title()` keeps the underscore — while the text
the spec derives (underscores replaced by spaces, words capitalized) is
"Resistor Array". -/
theorem indexLinks_underscore_kept :
    indexLinks ["resistor_array".toList] =
      [("resistor_array.html".toList, "Resistor_Array".toList)] ∧
    specLinkText "resistor_array".toList = "Resistor Array".toList ∧
    ("Resistor_Array".toList : Chars) ≠ "Resistor Array".toList :=
  ⟨by decide, by decide, by decide⟩

/-- Claim C8 as amended: the Index Builder emits one link per group
pointing to `<group>.html`, whose visible text is the group name
title-cased in place by Python `str.title()`: alphabetic characters are
re-cased, but every non-alphabetic character — underscores included —
is kept unchanged, not replaced by a space. -/
theorem indexLinks_characterization (pages : List Chars) :
    indexLinks pages =
      pages.map (fun p => (p ++ (".html".toList), pyTitle p)) ∧
    ∀ p : Chars, (pyTitle p).length = p.length ∧
      ∀ pr ∈ List.zip p (pyTitle p),
        pr.1.isAlpha = false → pr.2 = pr.1 := by
  constructor
  · induction pages with
    | nil => rfl
    | cons p ps ih => simp [indexLinks, ih]
  · intro p
    exact pyTitleAux_nonalpha false p

/-- Witness for the amended C8 at a concrete group list. -/
theorem indexLinks_characterization_witness :
    indexLinks ["amplifiers".toList, "resistor_array".toList] =
      [("amplifiers.html".toList, "Amplifiers".toList),
       ("resistor_array.html".toList, "Resistor_Array".toList)] :=
  ((indexLinks_characterization
    ["amplifiers".toList, "resistor_array".toList]).1).trans (by decide)

theorem contains_true_iff (l : List String) (c : String) :
    l.contains c = true ↔ c ∈ l := by
  induction l with
  | nil => simp
  | cons x xs ih =>
    simp only [List.contains_cons, Bool.or_eq_true, beq_iff_eq,
      List.mem_cons, ih]

/-- Claim C9: the column filter never emits a column of the exclude
set; it emits the other original columns in their original relative
order, each exactly once when the header has no duplicates; and an
excluded name absent from the header changes nothing (it is silently
ignored). -/
theorem filterHeaders_correct (headers excl : List String) :
    (∀ c ∈ excl, c ∉ filterHeaders headers excl) ∧
    List.Sublist (filterHeaders headers excl) headers ∧
    (∀ c ∈ headers, c ∉ excl → c ∈ filterHeaders headers excl) ∧
    (headers.Nodup → ∀ c ∈ headers, c ∉ excl →
      (filterHeaders headers excl).count c = 1) ∧
    (∀ x, x ∉ headers → filterHeaders headers (x :: excl) =
      filterHeaders headers excl) := by
  have hmem : ∀ c, c ∈ filterHeaders headers excl ↔
      c ∈ headers ∧ c ∉ excl := by
    intro c
    unfold filterHeaders
    rw [List.mem_filter]
    simp [contains_true_iff]
  refine ⟨?_, ?_, ?_, ?_, ?_⟩
  · intro c hc hmem'
    exact ((hmem c).mp hmem').2 hc
  · exact List.filter_sublist headers
  · intro c hc hcn
    exact (hmem c).mpr ⟨hc, hcn⟩
  · intro hnd c hc hcn
    exact List.count_eq_one_of_mem
      (hnd.sublist (List.filter_sublist headers))
      ((hmem c).mpr ⟨hc, hcn⟩)
  · intro x hx
    unfold filterHeaders
    apply List.filter_congr
    intro c hc
    have hcx : c ≠ x := fun h => hx (h ▸ hc)
    have hbeq : (c == x) = false := beq_eq_false_iff_ne.mpr hcx
    simp only [List.contains_cons, hbeq, Bool.false_or]

/-- Witness for C9 at the script's `EXCLUDE_COLUMNS`: "Price" is
filtered out of a concrete header list. -/
theorem filterHeaders_correct_witness :
    "Price" ∉ generateHeaders ["DK Part #", "Price", "Mfr"] :=
  (filterHeaders_correct ["DK Part #", "Price", "Mfr"]
    EXCLUDE_COLUMNS).1 "Price" (by decide)

end KP
